import Mathlib

/-!
Shallow embedding of the notes application core
(`src/notes_frontend/src/App.js`): the localStorage-backed storage layer
(`readLocal` / `writeLocal`), the `LocalStorageProvider` CRUD facade, the
view-state `reducer`, the two sort comparators, and the derived
`filteredNotes` list, together with theorems about them.
-/

namespace NotesApp

/-- The notes data model documented at the top of `App.js`:
`id`, `title`, `content`, `tags`, `createdAt`, `updatedAt`, `pinned`.
Timestamps are `Date.now()` millisecond counts, modelled as `Nat`. -/
structure Note where
  id : String
  title : String
  content : String
  tags : List String
  createdAt : Nat
  updatedAt : Nat
  pinned : Bool
deriving DecidableEq, Repr

/-- The contents of the localStorage slot under the key
`notes_app__notes_v1`, partitioned exactly by the branches of `readLocal`:
the key is absent (or the empty string), the raw string is not valid JSON
(`JSON.parse` throws), it parses to a non-array value, or it parses to an
array of notes. -/
inductive Stored where
  | absent : Stored
  | badJson : Stored
  | nonArray : Stored
  | arr : List Note → Stored
deriving DecidableEq, Repr

/-- `readLocal` from `App.js`: returns `[]` when the raw value is missing,
fails to parse, or is not an array; otherwise the parsed array. -/
def readLocal : Stored → List Note
  | .absent => []
  | .badJson => []
  | .nonArray => []
  | .arr notes => notes

/-- `writeLocal` from `App.js`: `localStorage.setItem(LS_KEY,
JSON.stringify(notes))` replaces whatever was stored before with the JSON
serialization of `notes`; the prior contents are ignored. -/
def writeLocal (_prior : Stored) (notes : List Note) : Stored :=
  Stored.arr notes

/-- A partial note as passed to `provider.update`: the JS object spread
`{ ...notes[idx], ...patch, updatedAt: Date.now() }` overrides exactly the
fields present on the patch. The call sites (`handleSaveNote`,
`handleTogglePin`) only ever patch these four fields. -/
structure Patch where
  title : Option String := none
  content : Option String := none
  tags : Option (List String) := none
  pinned : Option Bool := none
deriving DecidableEq, Repr

/-- The merged note `{ ...notes[idx], ...patch, updatedAt: Date.now() }`. -/
def applyPatch (n : Note) (p : Patch) (now : Nat) : Note :=
  { id := n.id
    title := p.title.getD n.title
    content := p.content.getD n.content
    tags := p.tags.getD n.tags
    createdAt := n.createdAt
    updatedAt := now
    pinned := p.pinned.getD n.pinned }

/-- The body of `LocalStorageProvider.update`: `findIndex` locates the
first note whose id matches, and the array is rewritten with the merged
note at that index; `none` models the `idx === -1` case. -/
def updateList (notes : List Note) (id : String) (p : Patch) (now : Nat) :
    Option (Note × List Note) :=
  match notes with
  | [] => none
  | n :: rest =>
    if n.id = id then
      let u := applyPatch n p now
      some (u, u :: rest)
    else
      match updateList rest id p now with
      | none => none
      | some (u, rest') => some (u, n :: rest')

namespace LocalStorageProvider

/-- `LocalStorageProvider.list`. -/
def list (s : Stored) : List Note :=
  readLocal s

/-- `LocalStorageProvider.create`: reads the collection, pushes the note,
writes it back and returns the note. -/
def create (note : Note) (s : Stored) : Note × Stored :=
  let notes := readLocal s
  (note, writeLocal s (notes ++ [note]))

/-- `LocalStorageProvider.update`: on a missing id the promise rejects
with `Error('Note not found')` and nothing is written; otherwise the
merged note is stored and returned. -/
def update (id : String) (p : Patch) (now : Nat) (s : Stored) :
    Except String Note × Stored :=
  match updateList (readLocal s) id p now with
  | none => (Except.error "Note not found", s)
  | some (u, notes') => (Except.ok u, writeLocal s notes')

/-- `LocalStorageProvider.remove`: filters out every note with the given
id, writes the result back, and returns `true`. -/
def remove (id : String) (s : Stored) : Bool × Stored :=
  let notes := readLocal s
  (true, writeLocal s (notes.filter (fun n => n.id != id)))

end LocalStorageProvider

/-- JavaScript `String.prototype.toLowerCase`, modelled character by
character over the string's character list. -/
def jsToLower (s : String) : String :=
  String.mk (s.data.map Char.toLower)

/-- JavaScript `String.prototype.trim`: strip whitespace from both
ends. -/
def jsTrim (s : String) : String :=
  String.mk
    (((s.data.dropWhile Char.isWhitespace).reverse.dropWhile
      Char.isWhitespace).reverse)

/-- `normalizeTag` from `App.js`: `t.trim().toLowerCase()`. -/
def normalizeTag (t : String) : String :=
  jsToLower (jsTrim t)

/-- Stable insertion of an element into a list: the element goes in front
of the first entry it compares less-or-equal to. Used to model
`Array.prototype.sort`, which ECMAScript requires to be stable. -/
def insertSorted (le : Note → Note → Bool) (x : Note) : List Note → List Note
  | [] => [x]
  | y :: ys => if le x y then x :: y :: ys else y :: insertSorted le x ys

/-- Stable sort by the boolean relation `le`, modelling
`Array.prototype.sort(cmp)` where `le a b` means `cmp(a, b) <= 0`. For the
consistent comparators used in `App.js` every stable sort produces the
same list, so insertion sort is a faithful model. -/
def stableSort (le : Note → Note → Bool) : List Note → List Note
  | [] => []
  | x :: xs => insertSorted le x (stableSort le xs)

/-- The comparator of the `UPSERT_NOTE` branch of the reducer:
pinned notes first, then larger `updatedAt` first (`cmp(a, b) <= 0`). -/
def upsertLE (a b : Note) : Bool :=
  if a.pinned && !b.pinned then true
  else if !a.pinned && b.pinned then false
  else b.updatedAt ≤ a.updatedAt

/-- The effective timestamp `n.updatedAt || n.createdAt` used by
`sortNotes`: JavaScript `||` falls back to `createdAt` when `updatedAt`
is falsy (`0`). -/
def tsOf (n : Note) : Nat :=
  if n.updatedAt = 0 then n.createdAt else n.updatedAt

/-- The comparator of `sortNotes` in `App.js`: pinned notes first, then
larger `updatedAt || createdAt` first. -/
def sortNotesLE (a b : Note) : Bool :=
  if a.pinned && !b.pinned then true
  else if !a.pinned && b.pinned then false
  else tsOf b ≤ tsOf a

/-- `sortNotes` from `App.js`: copies the array and sorts it with
`sortNotesLE`. -/
def sortNotes (arr : List Note) : List Note :=
  stableSort sortNotesLE arr

/-- The reducer state: `loading`, `notes`, `search`, `selectedTag`,
`editorOpen`, `editingNote` (from `initialState` in `App.js`). -/
structure AppState where
  loading : Bool
  notes : List Note
  search : String
  selectedTag : String
  editorOpen : Bool
  editingNote : Option Note
deriving DecidableEq, Repr

/-- `initialState` from `App.js`. -/
def initialState : AppState :=
  { loading := true
    notes := []
    search := ""
    selectedTag := "all"
    editorOpen := false
    editingNote := none }

/-- The action objects dispatched to the reducer. -/
inductive Action where
  | INIT (notes : List Note)
  | SET_SEARCH (value : String)
  | SET_TAG (value : String)
  | OPEN_EDITOR (note : Option Note)
  | CLOSE_EDITOR
  | UPSERT_NOTE (note : Note)
  | DELETE_NOTE (id : String)

/-- The `reducer` from `App.js`. The `UPSERT_NOTE` branch replaces the
note when its id already occurs (`exists`), otherwise prepends it, and
then re-sorts the array in place with the pinned-first comparator. -/
def reducer (state : AppState) (action : Action) : AppState :=
  match action with
  | .INIT notes => { state with loading := false, notes := notes }
  | .SET_SEARCH v => { state with search := v }
  | .SET_TAG v => { state with selectedTag := v }
  | .OPEN_EDITOR note => { state with editorOpen := true, editingNote := note }
  | .CLOSE_EDITOR => { state with editorOpen := false, editingNote := none }
  | .UPSERT_NOTE note =>
    let found := state.notes.any (fun n => n.id == note.id)
    let notes :=
      if found then state.notes.map (fun n => if n.id = note.id then note else n)
      else note :: state.notes
    { state with notes := stableSort upsertLE notes }
  | .DELETE_NOTE id => { state with notes := state.notes.filter (fun n => n.id != id) }

/-- Substring test on character lists: JavaScript
`String.prototype.includes`. -/
def listIncludes (needle : List Char) : List Char → Bool
  | [] => needle.isEmpty
  | c :: rest => needle.isPrefixOf (c :: rest) || listIncludes needle rest

/-- `hay.includes(needle)` on strings. -/
def strIncludes (hay needle : String) : Bool :=
  listIncludes needle.data hay.data

/-- The `filteredNotes` memo from `App.js`: the query is the trimmed,
lowercased search text; a note matches when the query is empty or occurs
in the lowercased title or content, and when the selected tag is `all` or
occurs among the note's normalized tags. -/
def filteredNotes (st : AppState) : List Note :=
  let q := jsToLower (jsTrim st.search)
  st.notes.filter (fun n =>
    (q.isEmpty || strIncludes (jsToLower n.title) q
      || strIncludes (jsToLower n.content) q)
    && (st.selectedTag == "all"
        || (n.tags.map normalizeTag).contains (normalizeTag st.selectedTag)))

/-- The fresh note built by `handleSaveNote` when no note is being
edited. -/
structure Draft where
  title : String
  content : String
  tags : List String
  pinned : Bool
deriving DecidableEq, Repr

/-- The note object `handleSaveNote` constructs for a new draft. -/
def mkNote (newId : String) (d : Draft) (now : Nat) : Note :=
  { id := newId
    title := d.title
    content := d.content
    tags := d.tags
    createdAt := now
    updatedAt := now
    pinned := d.pinned }

/-- The initial-load effect in `App`: `provider.list()` then
`dispatch({ type: 'INIT', notes: sortNotes(notes) })`. Storage is not
written. -/
def appLoad (st : AppState) (store : Stored) : AppState × Stored :=
  (reducer st (.INIT (sortNotes (LocalStorageProvider.list store))), store)

/-- `handleSaveNote` with no `editingNote`: create the fresh note in
storage, upsert it into the state, close the editor. -/
def handleSaveNewNote (newId : String) (d : Draft) (now : Nat)
    (st : AppState) (store : Stored) : AppState × Stored :=
  let newNote := mkNote newId d now
  let r := LocalStorageProvider.create newNote store
  (reducer (reducer st (.UPSERT_NOTE newNote)) .CLOSE_EDITOR, r.2)

/-- `handleSaveNote` with an `editingNote`: `provider.update` then upsert
the returned note and close the editor. When the update rejects, the
`await` re-throws and neither dispatch runs. -/
def handleSaveEdit (editingId : String) (p : Patch) (now : Nat)
    (st : AppState) (store : Stored) : AppState × Stored :=
  match LocalStorageProvider.update editingId p now store with
  | (.ok u, store') => (reducer (reducer st (.UPSERT_NOTE u)) .CLOSE_EDITOR, store')
  | (.error _, store') => (st, store')

/-- `handleTogglePin`: `provider.update(note.id, { pinned: !note.pinned })`
then upsert the returned note. -/
def handleTogglePin (note : Note) (now : Nat)
    (st : AppState) (store : Stored) : AppState × Stored :=
  match LocalStorageProvider.update note.id { pinned := some (!note.pinned) } now store with
  | (.ok u, store') => (reducer st (.UPSERT_NOTE u), store')
  | (.error _, store') => (st, store')

/-- `handleDelete`: `provider.remove(id)` then dispatch `DELETE_NOTE`. -/
def handleDelete (id : String) (st : AppState) (store : Stored) :
    AppState × Stored :=
  (reducer st (.DELETE_NOTE id), (LocalStorageProvider.remove id store).2)

/-- The ids of a list of notes. -/
def idsOf (l : List Note) : List String :=
  l.map Note.id

/-- The synchronisation invariant of claim C1: the in-memory notes are a
permutation of the persisted collection (hence equal as sets), and ids
are distinct (they are generated by `uid()`). -/
def inSync (st : AppState) (store : Stored) : Prop :=
  st.notes.Perm (readLocal store) ∧ (idsOf st.notes).Nodup

/-- The ordering property stated by claim C4: pinned notes precede
unpinned ones, and inside each group `updatedAt` is non-increasing. -/
def claimOrder (l : List Note) : Prop :=
  l.Pairwise (fun a b => (b.pinned = true → a.pinned = true) ∧
    (a.pinned = b.pinned → b.updatedAt ≤ a.updatedAt))

/-- The ordering `sortNotes` actually establishes: pinned notes precede
unpinned ones, and inside each group the effective timestamp
`updatedAt || createdAt` is non-increasing. -/
def claimOrderTs (l : List Note) : Prop :=
  l.Pairwise (fun a b => (b.pinned = true → a.pinned = true) ∧
    (a.pinned = b.pinned → tsOf b ≤ tsOf a))

/-- A sample note used to instantiate concrete witnesses. -/
def note0 : Note :=
  { id := "a", title := "T", content := "C", tags := ["t"],
    createdAt := 1, updatedAt := 2, pinned := false }

/-- A sample editor draft used to instantiate concrete witnesses. -/
def draft0 : Draft :=
  { title := "t", content := "c", tags := ["x"], pinned := false }

/-- An unpinned note whose `updatedAt` is `0` (falsy in JavaScript), so
`sortNotes` falls back to its `createdAt` of `100`. -/
def cxNoteA : Note :=
  { id := "cxa", title := "", content := "", tags := [],
    createdAt := 100, updatedAt := 0, pinned := false }

/-- An unpinned note with `updatedAt = 5`, placed after `cxNoteA` by
`sortNotes` although its `updatedAt` is larger. -/
def cxNoteB : Note :=
  { id := "cxb", title := "", content := "", tags := [],
    createdAt := 0, updatedAt := 5, pinned := false }

theorem insertSorted_perm (le : Note → Note → Bool) (x : Note) (l : List Note) :
    (insertSorted le x l).Perm (x :: l) := by
  induction l with
  | nil => exact List.Perm.refl _
  | cons y ys ih =>
    by_cases hxy : le x y = true
    · simp [insertSorted, hxy]
    · simp only [insertSorted, if_neg hxy]
      exact (ih.cons y).trans (List.Perm.swap x y ys)

theorem stableSort_perm (le : Note → Note → Bool) (l : List Note) :
    (stableSort le l).Perm l := by
  induction l with
  | nil => exact List.Perm.refl _
  | cons x xs ih => exact (insertSorted_perm le x _).trans (ih.cons x)

theorem insertSorted_pairwise (le : Note → Note → Bool)
    (htot : ∀ a b, le a b = true ∨ le b a = true)
    (htrans : ∀ a b c, le a b = true → le b c = true → le a c = true)
    (x : Note) (l : List Note) (h : l.Pairwise (fun a b => le a b = true)) :
    (insertSorted le x l).Pairwise (fun a b => le a b = true) := by
  induction l with
  | nil => simp [insertSorted]
  | cons y ys ih =>
    rcases List.pairwise_cons.mp h with ⟨hy, hys⟩
    by_cases hxy : le x y = true
    · simp only [insertSorted, if_pos hxy]
      refine List.pairwise_cons.mpr ⟨?_, h⟩
      intro z hz
      rcases List.mem_cons.mp hz with rfl | hz'
      · exact hxy
      · exact htrans x y z hxy (hy z hz')
    · simp only [insertSorted, if_neg hxy]
      have hyx : le y x = true := (htot x y).resolve_left hxy
      refine List.pairwise_cons.mpr ⟨?_, ih hys⟩
      intro z hz
      have hz' : z ∈ x :: ys := (insertSorted_perm le x ys).mem_iff.mp hz
      rcases List.mem_cons.mp hz' with rfl | hz''
      · exact hyx
      · exact hy z hz''

theorem stableSort_pairwise (le : Note → Note → Bool)
    (htot : ∀ a b, le a b = true ∨ le b a = true)
    (htrans : ∀ a b c, le a b = true → le b c = true → le a c = true)
    (l : List Note) :
    (stableSort le l).Pairwise (fun a b => le a b = true) := by
  induction l with
  | nil => simp [stableSort]
  | cons x xs ih => exact insertSorted_pairwise le htot htrans x _ ih

theorem applyPatch_id (n : Note) (p : Patch) (now : Nat) :
    (applyPatch n p now).id = n.id := rfl

theorem updateList_eq_none_iff (l : List Note) (id : String) (p : Patch)
    (now : Nat) : updateList l id p now = none ↔ ∀ n ∈ l, n.id ≠ id := by
  induction l with
  | nil => simp [updateList]
  | cons n rest ih =>
    by_cases h : n.id = id
    · simp [updateList, h]
    · simp only [updateList, if_neg h, List.forall_mem_cons]
      cases hrec : updateList rest id p now with
      | none => simp [h]; exact ih.mp hrec
      | some v =>
        obtain ⟨u, rest'⟩ := v
        constructor
        · intro hc; simp at hc
        · rintro ⟨-, hall⟩
          rw [ih.mpr hall] at hrec
          simp at hrec

theorem updateList_eq_some (l : List Note) (id : String) (p : Patch) (now : Nat)
    (u : Note) (l' : List Note) (h : updateList l id p now = some (u, l')) :
    ∃ pre x suf, l = pre ++ x :: suf ∧ (∀ y ∈ pre, y.id ≠ id) ∧ x.id = id ∧
      u = applyPatch x p now ∧ l' = pre ++ u :: suf := by
  induction l generalizing l' with
  | nil => simp [updateList] at h
  | cons n rest ih =>
    by_cases hn : n.id = id
    · simp only [updateList, if_pos hn, Option.some.injEq, Prod.mk.injEq] at h
      obtain ⟨hu, hl'⟩ := h
      exact ⟨[], n, rest, by simp, by simp, hn, hu.symm, by simp [hl'.symm, hu]⟩
    · simp only [updateList, if_neg hn] at h
      cases hrec : updateList rest id p now with
      | none => rw [hrec] at h; simp at h
      | some v =>
        obtain ⟨u0, rest'⟩ := v
        rw [hrec] at h
        simp only [Option.some.injEq, Prod.mk.injEq] at h
        obtain ⟨hu0, hl'⟩ := h
        subst hu0
        obtain ⟨pre, x, suf, hrest, hpre, hx, hu, hrest'⟩ := ih rest' hrec
        refine ⟨n :: pre, x, suf, by simp [hrest], ?_, hx, hu, by simp [hl'.symm, hrest']⟩
        intro y hy
        rcases List.mem_cons.mp hy with rfl | hy'
        · exact hn
        · exact hpre y hy'

theorem idsOf_perm {l₁ l₂ : List Note} (h : l₁.Perm l₂) :
    (idsOf l₁).Perm (idsOf l₂) :=
  h.map Note.id

theorem idsOf_map_replace (l : List Note) (u : Note) :
    idsOf (l.map (fun n => if n.id = u.id then u else n)) = idsOf l := by
  induction l with
  | nil => rfl
  | cons n rest ih =>
    simp only [idsOf, List.map_cons] at *
    rw [ih]
    by_cases h : n.id = u.id
    · simp [h]
    · simp [h]

theorem reducer_upsert_notes (st : AppState) (u : Note) :
    (reducer st (.UPSERT_NOTE u)).notes =
      stableSort upsertLE
        (if st.notes.any (fun n => n.id == u.id)
          then st.notes.map (fun n => if n.id = u.id then u else n)
          else u :: st.notes) := rfl

theorem upsert_core (st : AppState) (store : Stored) (eid : String) (p : Patch)
    (now : Nat) (u : Note) (l' : List Note) (hsync : inSync st store)
    (hu : updateList (readLocal store) eid p now = some (u, l')) :
    inSync (reducer st (.UPSERT_NOTE u)) (writeLocal store l') := by
  obtain ⟨hperm, hnd⟩ := hsync
  have hndStore : (idsOf (readLocal store)).Nodup :=
    ((idsOf_perm hperm).nodup_iff).mp hnd
  obtain ⟨pre, x, suf, hdec, hpre, hx, huEq, hl'⟩ :=
    updateList_eq_some _ _ _ _ _ _ hu
  have huid : u.id = eid := by rw [huEq, applyPatch_id, hx]
  have hxmem : x ∈ st.notes := by
    apply hperm.mem_iff.mpr
    rw [hdec]
    exact List.mem_append_right _ (List.mem_cons_self _ _)
  have hfound : st.notes.any (fun n => n.id == u.id) = true := by
    rw [List.any_eq_true]
    exact ⟨x, hxmem, by rw [beq_iff_eq, huid, hx]⟩
  have hxsuf : ∀ y ∈ suf, y.id ≠ eid := by
    intro y hy hc
    have hnodup2 : (idsOf (pre ++ x :: suf)).Nodup := hdec ▸ hndStore
    have : (idsOf (x :: suf)).Nodup := by
      simp only [idsOf, List.map_append] at hnodup2
      exact hnodup2.of_append_right
    have hxnot : x.id ∉ idsOf suf := by
      simp only [idsOf, List.map_cons] at this
      exact (List.nodup_cons.mp this).1
    exact hxnot (hx ▸ hc ▸ List.mem_map_of_mem Note.id hy)
  have hmap : (readLocal store).map (fun n => if n.id = u.id then u else n) =
      pre ++ u :: suf := by
    rw [hdec, List.map_append, List.map_cons]
    have hpreMap : pre.map (fun n => if n.id = u.id then u else n) = pre := by
      have hcongr : ∀ y ∈ pre, (if y.id = u.id then u else y) = id y :=
        fun y hy => by rw [if_neg (by rw [huid]; exact hpre y hy)]; rfl
      rw [List.map_congr_left hcongr, List.map_id]
    have hsufMap : suf.map (fun n => if n.id = u.id then u else n) = suf := by
      have hcongr : ∀ y ∈ suf, (if y.id = u.id then u else y) = id y :=
        fun y hy => by rw [if_neg (by rw [huid]; exact hxsuf y hy)]; rfl
      rw [List.map_congr_left hcongr, List.map_id]
    rw [hpreMap, hsufMap, if_pos (by rw [huid, hx])]
  have hwrite : readLocal (writeLocal store l') = pre ++ u :: suf := by
    rw [hl']; rfl
  constructor
  · rw [reducer_upsert_notes, hfound, if_pos rfl, hwrite, ← hmap]
    exact (stableSort_perm _ _).trans (hperm.map _)
  · rw [reducer_upsert_notes, hfound, if_pos rfl]
    have h1 : (idsOf (stableSort upsertLE
        (st.notes.map (fun n => if n.id = u.id then u else n)))).Perm
        (idsOf (st.notes.map (fun n => if n.id = u.id then u else n))) :=
      idsOf_perm (stableSort_perm _ _)
    rw [h1.nodup_iff, idsOf_map_replace]
    exact hnd

theorem create_core (st : AppState) (store : Stored) (newNote : Note)
    (hsync : inSync st store) (hfresh : newNote.id ∉ idsOf st.notes) :
    inSync (reducer st (.UPSERT_NOTE newNote))
      (LocalStorageProvider.create newNote store).2 := by
  obtain ⟨hperm, hnd⟩ := hsync
  have hfound : st.notes.any (fun n => n.id == newNote.id) = false := by
    rw [List.any_eq_false]
    intro n hn hc
    exact hfresh (beq_iff_eq.mp hc ▸ List.mem_map_of_mem Note.id hn)
  have hwrite : readLocal (LocalStorageProvider.create newNote store).2 =
      readLocal store ++ [newNote] := rfl
  constructor
  · rw [reducer_upsert_notes, hfound, if_neg (by simp), hwrite]
    refine (stableSort_perm _ _).trans ?_
    exact (hperm.cons newNote).trans (List.perm_append_singleton newNote _).symm
  · rw [reducer_upsert_notes, hfound, if_neg (by simp)]
    have h1 : (idsOf (stableSort upsertLE (newNote :: st.notes))).Perm
        (idsOf (newNote :: st.notes)) :=
      idsOf_perm (stableSort_perm _ _)
    rw [h1.nodup_iff]
    exact List.nodup_cons.mpr ⟨hfresh, hnd⟩

theorem delete_core (st : AppState) (store : Stored) (id : String)
    (hsync : inSync st store) :
    inSync (reducer st (.DELETE_NOTE id))
      (LocalStorageProvider.remove id store).2 := by
  obtain ⟨hperm, hnd⟩ := hsync
  have hwrite : readLocal (LocalStorageProvider.remove id store).2 =
      (readLocal store).filter (fun n => n.id != id) := rfl
  constructor
  · rw [hwrite]
    exact hperm.filter _
  · have hsub : ((reducer st (.DELETE_NOTE id)).notes).Sublist st.notes :=
      List.filter_sublist _
    exact hnd.sublist (hsub.map Note.id)

theorem load_core (st : AppState) (store : Stored)
    (hnd : (idsOf (readLocal store)).Nodup) :
    inSync (appLoad st store).1 (appLoad st store).2 := by
  constructor
  · exact stableSort_perm _ _
  · have h1 : (idsOf (sortNotes (readLocal store))).Perm
        (idsOf (readLocal store)) := idsOf_perm (stableSort_perm _ _)
    exact h1.nodup_iff.mpr hnd

theorem upsertLE_total (a b : Note) : upsertLE a b = true ∨ upsertLE b a = true := by
  simp only [upsertLE]
  cases a.pinned <;> cases b.pinned <;> simp <;> omega

theorem upsertLE_trans (a b c : Note) (hab : upsertLE a b = true)
    (hbc : upsertLE b c = true) : upsertLE a c = true := by
  simp only [upsertLE] at *
  cases ha : a.pinned <;> cases hb : b.pinned <;> cases hc : c.pinned <;>
    simp_all <;> omega

theorem sortNotesLE_total (a b : Note) :
    sortNotesLE a b = true ∨ sortNotesLE b a = true := by
  simp only [sortNotesLE]
  cases a.pinned <;> cases b.pinned <;> simp <;> omega

theorem sortNotesLE_trans (a b c : Note) (hab : sortNotesLE a b = true)
    (hbc : sortNotesLE b c = true) : sortNotesLE a c = true := by
  simp only [sortNotesLE] at *
  cases ha : a.pinned <;> cases hb : b.pinned <;> cases hc : c.pinned <;>
    simp_all <;> omega

theorem inSync_close_editor (st : AppState) (store : Stored)
    (h : inSync st store) : inSync (reducer st .CLOSE_EDITOR) store := h

/-- C1: after every completed user-level operation — the initial load,
saving a new note, saving an edit, toggling a pin, and deleting a note —
the in-memory notes of the reducer state are a permutation of (so in
particular equal as a set to, first conjunct) the collection persisted in
storage: INIT loads the sorted stored collection, create appends to
storage and upserts into state, update rewrites the same note in both,
and delete removes every note with the given id from both. `inSync` also
carries distinctness of ids, which the app maintains by generating ids
with `uid()` (the freshness hypothesis of the create case). -/
theorem state_matches_storage :
    (∀ st store, inSync st store → ∀ n, (n ∈ st.notes ↔ n ∈ readLocal store)) ∧
    (∀ st store, (idsOf (readLocal store)).Nodup →
      inSync (appLoad st store).1 (appLoad st store).2) ∧
    (∀ newId d now st store, inSync st store → newId ∉ idsOf st.notes →
      inSync (handleSaveNewNote newId d now st store).1
        (handleSaveNewNote newId d now st store).2) ∧
    (∀ eid p now st store, inSync st store →
      inSync (handleSaveEdit eid p now st store).1
        (handleSaveEdit eid p now st store).2) ∧
    (∀ note now st store, inSync st store →
      inSync (handleTogglePin note now st store).1
        (handleTogglePin note now st store).2) ∧
    (∀ id st store, inSync st store →
      inSync (handleDelete id st store).1 (handleDelete id st store).2) := by
  refine ⟨?_, ?_, ?_, ?_, ?_, ?_⟩
  · intro st store h n
    exact h.1.mem_iff
  · intro st store h
    exact load_core st store h
  · intro newId d now st store h hfresh
    exact inSync_close_editor _ _ (create_core st store (mkNote newId d now) h hfresh)
  · intro eid p now st store h
    unfold handleSaveEdit LocalStorageProvider.update
    cases hu : updateList (readLocal store) eid p now with
    | none => exact h
    | some v =>
      obtain ⟨u, l'⟩ := v
      exact inSync_close_editor _ _ (upsert_core st store eid p now u l' h hu)
  · intro note now st store h
    unfold handleTogglePin LocalStorageProvider.update
    cases hu : updateList (readLocal store) note.id { pinned := some (!note.pinned) } now with
    | none => exact h
    | some v =>
      obtain ⟨u, l'⟩ := v
      exact upsert_core st store note.id _ now u l' h hu
  · intro id st store h
    exact delete_core st store id h

theorem state_matches_storage_witness :
    (note0 ∈ initialState.notes ↔ note0 ∈ readLocal Stored.absent) ∧
    inSync (appLoad initialState Stored.absent).1
      (appLoad initialState Stored.absent).2 ∧
    inSync (handleSaveNewNote "n1" draft0 3 initialState Stored.absent).1
      (handleSaveNewNote "n1" draft0 3 initialState Stored.absent).2 ∧
    inSync (handleSaveEdit "n1" {} 4 initialState Stored.absent).1
      (handleSaveEdit "n1" {} 4 initialState Stored.absent).2 ∧
    inSync (handleTogglePin note0 5 initialState Stored.absent).1
      (handleTogglePin note0 5 initialState Stored.absent).2 ∧
    inSync (handleDelete "a" initialState Stored.absent).1
      (handleDelete "a" initialState Stored.absent).2 :=
  have hs : inSync initialState Stored.absent :=
    ⟨List.Perm.refl _, List.nodup_nil⟩
  ⟨state_matches_storage.1 _ _ hs note0,
   state_matches_storage.2.1 initialState Stored.absent List.nodup_nil,
   state_matches_storage.2.2.1 "n1" draft0 3 _ _ hs (by simp [idsOf, initialState]),
   state_matches_storage.2.2.2.1 "n1" {} 4 _ _ hs,
   state_matches_storage.2.2.2.2.1 note0 5 _ _ hs,
   state_matches_storage.2.2.2.2.2 "a" _ _ hs⟩

/-- C2: for every stored value under the notes key that is not a JSON
array of notes — the key is absent, the raw string fails to parse, or it
parses to a non-array — both `readLocal` and `provider.list` return the
empty list instead of failing. -/
theorem read_defaults_to_empty (s : Stored) (h : ∀ ns, s ≠ Stored.arr ns) :
    readLocal s = [] ∧ LocalStorageProvider.list s = [] := by
  cases s with
  | absent => exact ⟨rfl, rfl⟩
  | badJson => exact ⟨rfl, rfl⟩
  | nonArray => exact ⟨rfl, rfl⟩
  | arr ns => exact absurd rfl (h ns)

theorem read_defaults_to_empty_witness :
    readLocal Stored.absent = [] ∧ LocalStorageProvider.list Stored.absent = [] :=
  read_defaults_to_empty Stored.absent (fun _ h => Stored.noConfusion h)

/-- C3: `update(id, patch)` fails with `'Note not found'` exactly when no
persisted note carries the id; when some persisted note does, the call
succeeds, returns the first stored note with that id merged with the
patch and with `updatedAt` set to the current time, and the persisted
collection holds that merged note in place of the old one. -/
theorem update_spec (id : String) (p : Patch) (now : Nat) (s : Stored) :
    ((LocalStorageProvider.update id p now s).1 =
        Except.error "Note not found" ↔ ∀ n ∈ readLocal s, n.id ≠ id) ∧
    (∀ x, x ∈ readLocal s → x.id = id →
      ∃ pre y suf, readLocal s = pre ++ y :: suf ∧
        (∀ z ∈ pre, z.id ≠ id) ∧ y.id = id ∧
        (LocalStorageProvider.update id p now s).1 =
          Except.ok (applyPatch y p now) ∧
        readLocal (LocalStorageProvider.update id p now s).2 =
          pre ++ applyPatch y p now :: suf) := by
  cases hu : updateList (readLocal s) id p now with
  | none =>
    have heq : LocalStorageProvider.update id p now s =
        (Except.error "Note not found", s) := by
      unfold LocalStorageProvider.update
      rw [hu]
    constructor
    · rw [heq]
      exact ⟨fun _ => (updateList_eq_none_iff _ _ _ _).mp hu, fun _ => rfl⟩
    · intro x hx hxid
      exact absurd hxid ((updateList_eq_none_iff _ _ _ _).mp hu x hx)
  | some v =>
    obtain ⟨u, l'⟩ := v
    have heq : LocalStorageProvider.update id p now s =
        (Except.ok u, writeLocal s l') := by
      unfold LocalStorageProvider.update
      rw [hu]
    obtain ⟨pre, y, suf, hdec, hpre, hy, huEq, hl'⟩ :=
      updateList_eq_some _ _ _ _ _ _ hu
    constructor
    · rw [heq]
      constructor
      · intro hc
        exact Except.noConfusion hc
      · intro hall
        rw [(updateList_eq_none_iff _ _ _ _).mpr hall] at hu
        exact Option.noConfusion hu
    · intro x hx hxid
      refine ⟨pre, y, suf, hdec, hpre, hy, ?_, ?_⟩
      · rw [heq, huEq]
      · rw [heq, hl', huEq]
        rfl

theorem update_spec_witness :
    ((LocalStorageProvider.update "b" {} 5 (Stored.arr [note0])).1 =
      Except.error "Note not found") ∧
    ((LocalStorageProvider.update "a" {} 5 (Stored.arr [note0])).1 ≠
      Except.error "Note not found") :=
  ⟨(update_spec "b" {} 5 (Stored.arr [note0])).1.mpr (by decide),
   fun hc =>
     ((update_spec "a" {} 5 (Stored.arr [note0])).1.mp hc note0
       (by simp [readLocal, note0])) rfl⟩

/-- C6: `create(note)` persists the prior collection with the note
appended at its end — every previously stored note keeps its value and
position — and returns the given note. -/
theorem create_appends (note : Note) (s : Stored) :
    (LocalStorageProvider.create note s).1 = note ∧
    readLocal (LocalStorageProvider.create note s).2 =
      readLocal s ++ [note] :=
  ⟨rfl, rfl⟩

/-- C7: `remove(id)` persists exactly the prior collection with every
note whose id equals the given id removed — the survivors keep their
value and order — and returns `true`. -/
theorem remove_removes (id : String) (s : Stored) :
    (LocalStorageProvider.remove id s).1 = true ∧
    readLocal (LocalStorageProvider.remove id s).2 =
      (readLocal s).filter (fun n => decide (n.id ≠ id)) := by
  refine ⟨rfl, ?_⟩
  show (readLocal s).filter (fun n => n.id != id) = _
  exact List.filter_congr (fun n _ => by by_cases h : n.id = id <;> simp [h, bne])

/-- C8: writing a notes list with `writeLocal` and reading it back with
`readLocal` yields the same list, and the write completely replaces the
single JSON blob: the prior contents do not influence the stored
result. -/
theorem write_then_read (prior prior' : Stored) (notes : List Note) :
    readLocal (writeLocal prior notes) = notes ∧
    writeLocal prior notes = writeLocal prior' notes :=
  ⟨rfl, rfl⟩

/-- C9: removing an id that matches no persisted note still returns
`true` and leaves the persisted collection unchanged. -/
theorem remove_missing_id (id : String) (s : Stored)
    (h : ∀ n ∈ readLocal s, n.id ≠ id) :
    (LocalStorageProvider.remove id s).1 = true ∧
    readLocal (LocalStorageProvider.remove id s).2 = readLocal s := by
  refine ⟨rfl, ?_⟩
  show (readLocal s).filter (fun n => n.id != id) = readLocal s
  exact List.filter_eq_self.mpr (fun n hn => by simp [bne, h n hn])

theorem remove_missing_id_witness :
    (LocalStorageProvider.remove "b" (Stored.arr [note0])).1 = true ∧
    readLocal (LocalStorageProvider.remove "b" (Stored.arr [note0])).2 =
      readLocal (Stored.arr [note0]) :=
  remove_missing_id "b" (Stored.arr [note0]) (by decide)

/-- C10: when `update` fails with `'Note not found'`, nothing is written:
the stored value is exactly what it was before the call. -/
theorem update_error_atomic (id : String) (p : Patch) (now : Nat) (s : Stored)
    (e : String)
    (h : (LocalStorageProvider.update id p now s).1 = Except.error e) :
    (LocalStorageProvider.update id p now s).2 = s := by
  unfold LocalStorageProvider.update at *
  cases hu : updateList (readLocal s) id p now with
  | none => simp [hu]
  | some v =>
    obtain ⟨u, l'⟩ := v
    rw [hu] at h
    simp at h

theorem update_error_atomic_witness :
    (LocalStorageProvider.update "b" {} 0 (Stored.arr [note0])).2 =
      Stored.arr [note0] :=
  update_error_atomic "b" {} 0 (Stored.arr [note0]) "Note not found" rfl

theorem upsertLE_imp (a b : Note) (h : upsertLE a b = true) :
    (b.pinned = true → a.pinned = true) ∧
    (a.pinned = b.pinned → b.updatedAt ≤ a.updatedAt) := by
  simp only [upsertLE] at h
  cases ha : a.pinned <;> cases hb : b.pinned <;> simp_all

theorem sortNotesLE_imp (a b : Note) (h : sortNotesLE a b = true) :
    (b.pinned = true → a.pinned = true) ∧
    (a.pinned = b.pinned → tsOf b ≤ tsOf a) := by
  simp only [sortNotesLE] at h
  cases ha : a.pinned <;> cases hb : b.pinned <;> simp_all

/-- C4 as stated is false on the code: after the load path dispatches
`INIT` with `sortNotes`, the notes need not be in non-increasing
`updatedAt` order inside a pin group, because `sortNotes` compares the
fallback `updatedAt || createdAt`. With `cxNoteA` (`updatedAt = 0`,
`createdAt = 100`) and `cxNoteB` (`updatedAt = 5`), `sortNotes` keeps
`cxNoteA` first, yet its `updatedAt` `0` is smaller than the following
`5`. -/
theorem init_not_sorted_by_updatedAt :
    ¬ claimOrder ((reducer initialState
      (.INIT (sortNotes [cxNoteA, cxNoteB]))).notes) := by
  unfold claimOrder
  decide

/-- C4 (amended): after the `INIT` dispatched by the load effect (whose
notes went through `sortNotes`) every pinned note precedes every unpinned
note and, within each group, the effective timestamp
`updatedAt || createdAt` is non-increasing; after every `UPSERT_NOTE` the
pinned notes again come first and, within each group, `updatedAt` itself
is non-increasing. -/
theorem sorted_after_init_and_upsert :
    (∀ st ns, claimOrderTs ((reducer st (.INIT (sortNotes ns))).notes)) ∧
    (∀ st n, claimOrder ((reducer st (.UPSERT_NOTE n)).notes)) := by
  constructor
  · intro st ns
    exact (stableSort_pairwise sortNotesLE sortNotesLE_total sortNotesLE_trans
      ns).imp (fun hab => sortNotesLE_imp _ _ hab)
  · intro st n
    rw [show ((reducer st (.UPSERT_NOTE n)).notes : List Note) =
      stableSort upsertLE
        (if st.notes.any (fun m => m.id == n.id)
          then st.notes.map (fun m => if m.id = n.id then n else m)
          else n :: st.notes) from reducer_upsert_notes st n]
    exact (stableSort_pairwise upsertLE upsertLE_total upsertLE_trans
      _).imp (fun hab => upsertLE_imp _ _ hab)

theorem sorted_after_init_and_upsert_witness :
    claimOrder ((reducer initialState (.UPSERT_NOTE note0)).notes) :=
  sorted_after_init_and_upsert.2 initialState note0

/-- C5: a note is in the derived filtered list exactly when it is in the
state's notes list and matches both the search test (the trimmed,
lowercased search text is empty or occurs as a substring of the
lowercased title or lowercased content) and the tag test (the selected
tag is `all` or the note's normalized tags contain the normalized
selected tag); the filtered list is a sublist of the notes list, so
relative order is preserved. -/
theorem filtered_notes_spec (st : AppState) (n : Note) :
    (n ∈ filteredNotes st ↔
      n ∈ st.notes ∧
      (jsToLower (jsTrim st.search) = "" ∨
        strIncludes (jsToLower n.title) (jsToLower (jsTrim st.search)) = true ∨
        strIncludes (jsToLower n.content) (jsToLower (jsTrim st.search)) = true) ∧
      (st.selectedTag = "all" ∨
        normalizeTag st.selectedTag ∈ n.tags.map normalizeTag)) ∧
    (filteredNotes st).Sublist st.notes := by
  constructor
  · simp only [filteredNotes, List.mem_filter, Bool.and_eq_true,
      Bool.or_eq_true, beq_iff_eq, List.elem_iff, String.isEmpty_iff,
      List.contains]
    tauto
  · exact List.filter_sublist _

theorem filtered_notes_spec_witness :
    note0 ∈ filteredNotes
      { loading := false, notes := [note0], search := "",
        selectedTag := "all", editorOpen := false, editingNote := none } :=
  (filtered_notes_spec
    { loading := false, notes := [note0], search := "",
      selectedTag := "all", editorOpen := false, editingNote := none }
    note0).1.mpr ⟨by simp, Or.inl (by decide), Or.inl rfl⟩

end NotesApp
